import Mathlib

/-!
# Verification of the `ethtool` packed-ABI encoder

A shallow embedding of `src/abi.rs` (together with the `decode_hex` helper of
`src/util.rs`) of the `mslipper/ethtool` repository, and proofs about it.

Modelling conventions:
* Rust `&str` values are embedded as `List Char`; Lean string literals enter
  through `String.data`.
* Bytes (`u8`) are embedded as `Nat`; every byte the encoders produce is `< 256`.
* Rust `Result<T, E>` is embedded as `Except E T`; the `?` operator together
  with the `From` conversions of `abi.rs` is made explicit at each call site.
* The arbitrary-precision integers of the `num-bigint` crate are embedded as
  `Nat` (for `BigUint`) and `Int` (for `BigInt`); the library operations the
  code uses (`from_str`, `to_bytes_be`, `to_signed_bytes_be`) are modelled
  below, following the library's documented behaviour (minimal big-endian
  magnitude, `[0]` for zero, minimal two's-complement for signed output).
* Recursions whose natural measure is a numeric value are written with an
  explicit fuel argument (structural recursion), so that all definitions
  reduce inside the kernel.
-/

set_option autoImplicit false

namespace Ethtool

/-! ## Big-endian byte sequences (model of `num-bigint` conversions) -/

/-- Big-endian interpretation of a byte list (most significant byte first). -/
def ofBytesBE (bs : List Nat) : Nat :=
  bs.foldl (fun acc b => acc * 256 + b) 0

/-- Fuel-driven minimal big-endian byte expansion of a natural number.
For `m ≤ fuel` this computes the base-256 digits of `m` (empty for `0`). -/
def beAux : Nat → Nat → List Nat
  | 0, _ => []
  | fuel + 1, m => if m = 0 then [] else beAux fuel (m / 256) ++ [m % 256]

/-- Model of `BigUint::to_bytes_be`: minimal big-endian bytes, `[0]` for zero. -/
def to_bytes_be (m : Nat) : List Nat :=
  if m = 0 then [0] else beAux m m

/-- Big-endian bytes of `v` left-padded with zeros to exactly `k` bytes
(assuming `v < 256^k`); used to model in-place two's complement. -/
def bytesBEFixed (v k : Nat) : List Nat :=
  let b := to_bytes_be v
  List.replicate (k - b.length) 0 ++ b

/-- Model of `num-bigint`'s in-place `twos_complement_be` on a nonzero
big-endian buffer of length `k` holding value `v`: the result holds
`256^k - v` in the same width. -/
def twosCompBE (bs : List Nat) : List Nat :=
  bytesBEFixed (256 ^ bs.length - ofBytesBE bs) bs.length

/-- Model of `BigInt::to_signed_bytes_be`: minimal two's-complement
big-endian bytes.  Mirrors the library: take the magnitude bytes, prepend a
zero byte when the sign bit is occupied (except for the exact `-2^(8k-1)`
pattern), then two's-complement when negative. -/
def to_signed_bytes_be (i : Int) : List Nat :=
  let mag := to_bytes_be i.natAbs
  let first := mag.headD 0
  let bytes :=
    if 0x7f < first ∧ ¬(first = 0x80 ∧ mag.tail.all (· = 0) ∧ i < 0) then
      0 :: mag
    else
      mag
  if i < 0 then twosCompBE bytes else bytes

/-- Big-endian two's-complement reading of a byte list (the decoding the
spec's round-trip property refers to). -/
def decodeTwosBE (bs : List Nat) : Int :=
  let u := ofBytesBE bs
  if 2 * u < 256 ^ bs.length then (u : Int) else (u : Int) - 256 ^ bs.length

/-! ## Decimal strings and the `num-bigint` / `u16` parsers -/

/-- Fuel-driven decimal digit expansion of a natural number (empty for `0`). -/
def decAux : Nat → Nat → List Char
  | 0, _ => []
  | fuel + 1, m => if m = 0 then [] else decAux fuel (m / 10) ++ [Nat.digitChar (m % 10)]

/-- The canonical decimal string of a natural number. -/
def decChars (v : Nat) : List Char :=
  if v = 0 then ['0'] else decAux v v

/-- The canonical decimal string of an integer (leading `-` when negative). -/
def decCharsInt (i : Int) : List Char :=
  if i < 0 then '-' :: decChars i.natAbs else decChars i.natAbs

/-- Value of a decimal digit character. -/
def digitVal (c : Char) : Option Nat :=
  if '0' ≤ c ∧ c ≤ '9' then some (c.toNat - '0'.toNat) else none

/-- Error type of the `num-bigint` string parsers (`ParseBigIntError`). -/
inductive ParseBigIntError where
  | Empty : ParseBigIntError
  | InvalidDigit : ParseBigIntError
deriving DecidableEq

/-- Display strings of `ParseBigIntError` (used by the `From` conversion
into `ABIError::InvalidValue`). -/
def parseBigIntErrMsg : ParseBigIntError → List Char
  | .Empty => "cannot parse integer from empty string".data
  | .InvalidDigit => "invalid digit found in string".data

/-- Left-to-right accumulation of decimal digits; first non-digit stops the
parse with `InvalidDigit`. -/
def parseBigDigits : Nat → List Char → Except ParseBigIntError Nat
  | acc, [] => .ok acc
  | acc, c :: rest =>
    match digitVal c with
    | some d => parseBigDigits (acc * 10 + d) rest
    | none => .error .InvalidDigit

/-- Model of `BigUint::from_str`: an optional leading `+`, then a nonempty
run of decimal digits. -/
def parseBigUint (s : List Char) : Except ParseBigIntError Nat :=
  match s with
  | '+' :: rest => if rest = [] then .error .Empty else parseBigDigits 0 rest
  | s => if s = [] then .error .Empty else parseBigDigits 0 s

/-- Model of `BigInt::from_str`: an optional leading sign, then a nonempty
run of decimal digits. -/
def parseBigInt (s : List Char) : Except ParseBigIntError Int :=
  match s with
  | '-' :: rest =>
    if rest = [] then .error .Empty
    else (parseBigDigits 0 rest).map (fun n => -(n : Int))
  | '+' :: rest =>
    if rest = [] then .error .Empty
    else (parseBigDigits 0 rest).map (fun n => (n : Int))
  | [] => .error .Empty
  | s => (parseBigDigits 0 s).map (fun n => (n : Int))

/-- Error type of Rust's `str::parse::<u16>` (`ParseIntError` kinds the code
can hit). -/
inductive ParseIntError where
  | Empty : ParseIntError
  | InvalidDigit : ParseIntError
  | PosOverflow : ParseIntError
deriving DecidableEq

/-- Display strings of `ParseIntError` (used by the `From` conversion into
`ABIError::InvalidValue`). -/
def parseIntErrMsg : ParseIntError → List Char
  | .Empty => "cannot parse integer from empty string".data
  | .InvalidDigit => "invalid digit found in string".data
  | .PosOverflow => "number too large to fit in target type".data

/-- Digit accumulation for `u16` parsing: digit check first, then overflow
check against `65535`, left to right, matching `from_str_radix`. -/
def parseU16Digits : Nat → List Char → Except ParseIntError Nat
  | acc, [] => .ok acc
  | acc, c :: rest =>
    match digitVal c with
    | some d =>
      if acc * 10 + d > 65535 then .error .PosOverflow
      else parseU16Digits (acc * 10 + d) rest
    | none => .error .InvalidDigit

/-- Model of `str::parse::<u16>`: optional leading `+`, then a nonempty run
of decimal digits whose value fits in `u16`. -/
def parseU16 (s : List Char) : Except ParseIntError Nat :=
  match s with
  | [] => .error .Empty
  | '+' :: rest =>
    if rest = [] then .error .InvalidDigit else parseU16Digits 0 rest
  | s => parseU16Digits 0 s

/-! ## Hex decoding (model of the `hex` crate and `util::decode_hex`) -/

/-- Value of one hexadecimal digit character (the `hex` crate's `val`). -/
def hexVal (c : Char) : Option Nat :=
  if '0' ≤ c ∧ c ≤ '9' then some (c.toNat - '0'.toNat)
  else if 'a' ≤ c ∧ c ≤ 'f' then some (c.toNat - 'a'.toNat + 10)
  else if 'A' ≤ c ∧ c ≤ 'F' then some (c.toNat - 'A'.toNat + 10)
  else none

/-- Error type of `hex::decode` (`FromHexError`). -/
inductive FromHexError where
  | OddLength : FromHexError
  | InvalidHexCharacter : Char → Nat → FromHexError
deriving DecidableEq

/-- Display strings of `FromHexError` (used by the `From` conversion into
`ABIError::IOError`). -/
def fromHexErrMsg : FromHexError → List Char
  | .OddLength => "Odd number of digits".data
  | .InvalidHexCharacter c idx =>
    "Invalid character '".data ++ [c] ++ "' at position ".data ++ (Nat.repr idx).data

/-- Pairwise hex decoding, high nibble first, reporting the first invalid
character with its position. -/
def hexPairs : Nat → List Char → Except FromHexError (List Nat)
  | _, [] => .ok []
  | _, [_] => .error .OddLength
  | idx, c1 :: c2 :: rest =>
    match hexVal c1, hexVal c2 with
    | some h, some l => (hexPairs (idx + 2) rest).map (fun bs => (h * 16 + l) :: bs)
    | none, _ => .error (.InvalidHexCharacter c1 idx)
    | some _, none => .error (.InvalidHexCharacter c2 (idx + 1))

/-- Model of `hex::decode`: reject odd lengths first, then decode pairs. -/
def hexDecode (s : List Char) : Except FromHexError (List Nat) :=
  if s.length % 2 ≠ 0 then .error .OddLength else hexPairs 0 s

/-- Prefix test: does `s` begin with `pre`? Model of `str::starts_with`. -/
def startsWith : List Char → List Char → Bool
  | [], _ => true
  | _ :: _, [] => false
  | p :: ps, c :: cs => p = c && startsWith ps cs

/-- Fuel-driven repeated removal of a leading occurrence of `pre`. -/
def trimAux : Nat → List Char → List Char → List Char
  | 0, _, s => s
  | fuel + 1, pre, s =>
    if pre ≠ [] ∧ startsWith pre s then trimAux fuel pre (s.drop pre.length) else s

/-- Model of Rust's `str::trim_start_matches`: removes **every** leading
repetition of `pre` (this repetition matters: see the claims about repeated
type-name prefixes). -/
def trimStartMatches (pre s : List Char) : List Char :=
  trimAux s.length pre s

/-- Model of `util::decode_hex`: strip a leading `0x` (with
`trim_start_matches`, hence every leading repetition) when present, then
hex-decode. -/
def decode_hex (input : List Char) : Except FromHexError (List Nat) :=
  let stripped :=
    if startsWith ('0' :: ['x']) input then trimStartMatches ('0' :: ['x']) input else input
  hexDecode stripped

/-! ## Splitting (model of `str::split`) -/

/-- Model of Rust's `str::split` on a single-character pattern: always
returns at least one (possibly empty) piece. -/
def splitOnChar (c : Char) : List Char → List (List Char)
  | [] => [[]]
  | x :: xs =>
    if x = c then [] :: splitOnChar c xs
    else
      match splitOnChar c xs with
      | [] => [[x]]
      | h :: t => (x :: h) :: t

/-! ## The ABI data model (`src/abi.rs`) -/

/-- The error enum `ABIError` of `abi.rs`.  String payloads are the Display
renderings the `From` conversions produce. -/
inductive ABIError where
  | IOError : List Char → ABIError
  | InvalidSize : Nat → ABIError
  | InvalidFieldType : List Char → ABIError
  | InvalidFieldDefinition : ABIError
  | InvalidValue : List Char → ABIError
  | ByteSizeMismatch : ABIError
  | Unimplemented : ABIError
deriving DecidableEq

/-- The type-descriptor enum `ABIField` of `abi.rs`. -/
inductive ABIField where
  | Address : ABIField
  | Boolean : ABIField
  | String : ABIField
  | Bytes : ABIField
  | BytesN : Nat → ABIField
  | IntN : Nat → ABIField
  | UintN : Nat → ABIField
  | FixedN : Nat → Nat → ABIField
  | UFixedN : Nat → Nat → ABIField
deriving DecidableEq

/-- Model of `field_size_from_name`: strip every leading repetition of `pre`,
empty remainder means size `0`, otherwise parse as `u16` (parse errors become
`InvalidValue` through the `From` conversion). -/
def field_size_from_name (pre name : List Char) : Except ABIError Nat :=
  let stripped := trimStartMatches pre name
  if stripped.length = 0 then .ok 0
  else (parseU16 stripped).mapError (fun e => .InvalidValue (parseIntErrMsg e))

/-- Model of `fixed_field_size_from_name`: strip the prefix, require a
nonempty remainder splitting on `"x"` into exactly two `u16` operands. -/
def fixed_field_size_from_name (pre name : List Char) : Except ABIError (Nat × Nat) :=
  let stripped := trimStartMatches pre name
  if stripped.length = 0 then .error .InvalidFieldDefinition
  else
    match splitOnChar 'x' stripped with
    | [a, b] =>
      match parseU16 a with
      | .error e => .error (.InvalidValue (parseIntErrMsg e))
      | .ok m =>
        match parseU16 b with
        | .error e => .error (.InvalidValue (parseIntErrMsg e))
        | .ok n => .ok (m, n)
    | _ => .error .InvalidFieldDefinition

/-- Model of `ABIField::parse_bytes`. -/
def ABIField.parse_bytes (s : List Char) : Except ABIError ABIField :=
  (field_size_from_name "bytes".data s).bind fun size =>
    if size = 0 then .ok .Bytes
    else if size ≤ 32 then .ok (.BytesN size)
    else .error (.InvalidSize size)

/-- Model of `ABIField::parse_int`. -/
def ABIField.parse_int (s : List Char) : Except ABIError ABIField :=
  (field_size_from_name "int".data s).bind fun size =>
    if size = 0 then .ok (.IntN 256)
    else if size ≤ 256 ∧ size % 8 = 0 then .ok (.IntN size)
    else .error (.InvalidSize size)

/-- Model of `ABIField::parse_uint`. -/
def ABIField.parse_uint (s : List Char) : Except ABIError ABIField :=
  (field_size_from_name "uint".data s).bind fun size =>
    if size = 0 then .ok (.UintN 256)
    else if size ≤ 256 ∧ size % 8 = 0 then .ok (.UintN size)
    else .error (.InvalidSize size)

/-- Model of `ABIField::parse_fixed`. -/
def ABIField.parse_fixed (s : List Char) : Except ABIError ABIField :=
  (fixed_field_size_from_name "fixed".data s).bind fun mn =>
    if mn.1 < 8 ∨ 256 < mn.1 ∨ mn.1 % 8 ≠ 0 then .error (.InvalidSize mn.1)
    else if 80 < mn.2 then .error (.InvalidSize mn.2)
    else .ok (.FixedN mn.1 mn.2)

/-- Model of `ABIField::parse_ufixed`.  Note: like the source, this strips
the literal prefix `"fixed"` (not `"ufixed"`). -/
def ABIField.parse_ufixed (s : List Char) : Except ABIError ABIField :=
  (fixed_field_size_from_name "fixed".data s).bind fun mn =>
    if mn.1 < 8 ∨ 256 < mn.1 ∨ mn.1 % 8 ≠ 0 then .error (.InvalidSize mn.1)
    else if 80 < mn.2 then .error (.InvalidSize mn.2)
    else .ok (.UFixedN mn.1 mn.2)

/-- Model of `ABIField::from_str`: exact literals first, then prefix dispatch
in source order (`bytes`, `int`, `uint`, `fixed`, `ufixed`). -/
def ABIField.from_str (s : List Char) : Except ABIError ABIField :=
  if s = "address".data then .ok .Address
  else if s = "bool".data then .ok .Boolean
  else if s = "string".data then .ok .String
  else if startsWith "bytes".data s then ABIField.parse_bytes s
  else if startsWith "int".data s then ABIField.parse_int s
  else if startsWith "uint".data s then ABIField.parse_uint s
  else if startsWith "fixed".data s then ABIField.parse_fixed s
  else if startsWith "ufixed".data s then ABIField.parse_ufixed s
  else .error (.InvalidFieldType s)

/-! ## Per-type packed encoders (`abi.rs` lines 208–268)

Rust's `buf.write(..)` / `buf.append(..)` on a `Vec<u8>` append the bytes to
the buffer; each encoder below therefore returns the extended buffer
`buf ++ ...` (in-place mutation made explicit). -/

/-- Standard UTF-8 encoding of one character (model of Rust `str::as_bytes`
restricted to one scalar value). -/
def utf8CharBytes (c : Char) : List Nat :=
  let n := c.toNat
  if n < 0x80 then [n]
  else if n < 0x800 then [0xc0 + n / 64, 0x80 + n % 64]
  else if n < 0x10000 then [0xe0 + n / 4096, 0x80 + n / 64 % 64, 0x80 + n % 64]
  else [0xf0 + n / 262144, 0x80 + n / 4096 % 64, 0x80 + n / 64 % 64, 0x80 + n % 64]

/-- UTF-8 bytes of a string (model of Rust `str::as_bytes`). -/
def utf8Bytes (s : List Char) : List Nat :=
  s.flatMap utf8CharBytes

/-- Model of `encode_packed_address`: hex-decode, require exactly 20 bytes,
append them. -/
def encode_packed_address (data : List Char) (buf : List Nat) : Except ABIError (List Nat) :=
  match decode_hex data with
  | .error e => .error (.IOError (fromHexErrMsg e))
  | .ok dec =>
    if dec.length ≠ 20 then .error (.InvalidValue "invalid address".data)
    else .ok (buf ++ dec)

/-- Model of `encode_packed_bool`: exactly the literals `true` / `false`,
appending `0x01` / `0x00`. -/
def encode_packed_bool (data : List Char) (buf : List Nat) : Except ABIError (List Nat) :=
  if data = "true".data then .ok (buf ++ [0x01])
  else if data = "false".data then .ok (buf ++ [0x00])
  else .error (.InvalidValue "invalid boolean value".data)

/-- Model of `encode_packed_string`: append the value's UTF-8 bytes. -/
def encode_packed_string (data : List Char) (buf : List Nat) : Except ABIError (List Nat) :=
  .ok (buf ++ utf8Bytes data)

/-- Model of `encode_packed_uintn`: parse a `BigUint`, take its minimal
big-endian bytes, left-pad with zeros to `size / 8` bytes, append.

The source computes the pad width as `(size / 8) as usize - b.len()`, an
unchecked `usize` subtraction: when the value needs more than `size / 8`
bytes this underflows and the process panics/aborts instead of returning any
`Result`.  That divergence is modelled as `none`; normal termination with
the source's `Result` is `some`. -/
def encode_packed_uintn (data : List Char) (size : Nat) (buf : List Nat) :
    Option (Except ABIError (List Nat)) :=
  match parseBigUint data with
  | .error e => some (.error (.InvalidValue (parseBigIntErrMsg e)))
  | .ok num =>
    let b := to_bytes_be num
    if b.length ≤ size / 8 then
      some (.ok (buf ++ (List.replicate (size / 8 - b.length) 0 ++ b)))
    else
      none

/-- Model of `encode_packed_intn`: parse a `BigInt`, take its minimal
two's-complement big-endian bytes, left-pad with **zero** bytes (regardless
of sign) to `size / 8` bytes, append.

Same unchecked pad-width subtraction as `encode_packed_uintn`: when the
minimal two's-complement form needs more than `size / 8` bytes the source
panics/aborts, modelled as `none`. -/
def encode_packed_intn (data : List Char) (size : Nat) (buf : List Nat) :
    Option (Except ABIError (List Nat)) :=
  match parseBigInt data with
  | .error e => some (.error (.InvalidValue (parseBigIntErrMsg e)))
  | .ok num =>
    let b := to_signed_bytes_be num
    if b.length ≤ size / 8 then
      some (.ok (buf ++ (List.replicate (size / 8 - b.length) 0 ++ b)))
    else
      none

/-- Model of `encode_packed_bytes`: hex-decode and append. -/
def encode_packed_bytes (data : List Char) (buf : List Nat) : Except ABIError (List Nat) :=
  match decode_hex data with
  | .error e => .error (.IOError (fromHexErrMsg e))
  | .ok dbuf => .ok (buf ++ dbuf)

/-- Model of `encode_packed_bytesn`: hex-decode, require exactly `size`
bytes, append. -/
def encode_packed_bytesn (data : List Char) (size : Nat) (buf : List Nat) :
    Except ABIError (List Nat) :=
  match decode_hex data with
  | .error e => .error (.IOError (fromHexErrMsg e))
  | .ok dbuf =>
    if dbuf.length ≠ size then .error .ByteSizeMismatch
    else .ok (buf ++ dbuf)

/-- Model of `ABIField::encode_packed`: dispatch on the descriptor; the
source's wildcard arm (covering exactly `FixedN` and `UFixedN`) yields
`Unimplemented`.  The encoders that cannot panic are lifted into the
`Option` (divergence) layer with `some`; only the integer encoders can
produce `none` (panic). -/
def ABIField.encode_packed (f : ABIField) (data : List Char) (buf : List Nat) :
    Option (Except ABIError (List Nat)) :=
  match f with
  | .Address => some (encode_packed_address data buf)
  | .String => some (encode_packed_string data buf)
  | .UintN size => encode_packed_uintn data size buf
  | .IntN size => encode_packed_intn data size buf
  | .Bytes => some (encode_packed_bytes data buf)
  | .BytesN size => some (encode_packed_bytesn data size buf)
  | .Boolean => some (encode_packed_bool data buf)
  | .FixedN _ _ => some (.error .Unimplemented)
  | .UFixedN _ _ => some (.error .Unimplemented)

/-- Model of `encode_field`: split the token on `:`, require exactly two
pieces, parse the type descriptor, encode the value against it.  `none`
means the underlying encoder panicked. -/
def encode_field (tok : List Char) (buf : List Nat) :
    Option (Except ABIError (List Nat)) :=
  match splitOnChar ':' tok with
  | [a, b] =>
    match ABIField.from_str a with
    | .error e => some (.error e)
    | .ok fld => fld.encode_packed b buf
  | _ => some (.error .InvalidFieldDefinition)

/-- The field loop of `encode_abi_packed`: encode each field in order into
the growing buffer, aborting at the first error; a panic (`none`) in any
field aborts the whole process. -/
def encodeFields : List (List Char) → List Nat → Option (Except ABIError (List Nat))
  | [], buf => some (.ok buf)
  | f :: fs, buf =>
    match encode_field f buf with
    | none => none
    | some (.error e) => some (.error e)
    | some (.ok buf2) => encodeFields fs buf2

/-- Model of `encode_abi_packed`: split the spec on `,` and run the field
loop on an empty buffer.  `some r` is the source's returned `Result`;
`none` means the process aborted in a panicking integer encoder. -/
def encode_abi_packed (data : List Char) : Option (Except ABIError (List Nat)) :=
  encodeFields (splitOnChar ',' data) []

/-- The appended bytes of a successful single-field encode (empty on error
or panic); used to state the atomicity property. -/
def okBytes : Option (Except ABIError (List Nat)) → List Nat
  | some (.ok bs) => bs
  | _ => []

/-- Whether a single-field encode terminates normally and successfully. -/
def okOutcome : Option (Except ABIError (List Nat)) → Bool
  | some (.ok _) => true
  | _ => false

deriving instance DecidableEq for Except

/-! ## Arithmetic lemmas about the byte and decimal conversions -/

theorem foldlBytes_acc : ∀ (l : List Nat) (acc : Nat),
    l.foldl (fun a b => a * 256 + b) acc = acc * 256 ^ l.length + ofBytesBE l
  | [], acc => by simp [ofBytesBE]
  | b :: bs, acc => by
    have h1 := foldlBytes_acc bs (acc * 256 + b)
    have h2 := foldlBytes_acc bs b
    simp only [ofBytesBE, List.foldl_cons, List.length_cons] at h1 h2 ⊢
    rw [h1, show (0 : Nat) * 256 + b = b by ring, h2]
    ring

theorem ofBytesBE_append (l1 l2 : List Nat) :
    ofBytesBE (l1 ++ l2) = ofBytesBE l1 * 256 ^ l2.length + ofBytesBE l2 := by
  simp only [ofBytesBE, List.foldl_append]
  exact foldlBytes_acc l2 _

theorem ofBytesBE_replicate_zero : ∀ j : Nat, ofBytesBE (List.replicate j 0) = 0
  | 0 => rfl
  | j + 1 => by
    simpa [ofBytesBE, List.replicate_succ] using ofBytesBE_replicate_zero j

theorem ofBytesBE_beAux : ∀ (fuel m : Nat), m ≤ fuel → ofBytesBE (beAux fuel m) = m
  | 0, m, h => by
    have : m = 0 := by omega
    subst this; rfl
  | fuel + 1, m, h => by
    by_cases hm : m = 0
    · subst hm; rfl
    · have hrec : m / 256 ≤ fuel := by
        have := Nat.div_lt_self (Nat.pos_of_ne_zero hm) (by norm_num : (1 : Nat) < 256)
        omega
      simp only [beAux, if_neg hm]
      rw [ofBytesBE_append, ofBytesBE_beAux fuel (m / 256) hrec]
      simp only [List.length_singleton, pow_one, ofBytesBE, List.foldl_cons, List.foldl_nil]
      omega

theorem beAux_length_le : ∀ (fuel m k : Nat), m ≤ fuel → m < 256 ^ k →
    (beAux fuel m).length ≤ k
  | 0, _, _, _, _ => by simp [beAux]
  | fuel + 1, m, k, h, hk => by
    by_cases hm : m = 0
    · simp [beAux, hm]
    · obtain ⟨k', rfl⟩ : ∃ k', k = k' + 1 := by
        refine ⟨k - 1, ?_⟩
        rcases Nat.eq_zero_or_pos k with hk0 | hk0
        · subst hk0; simp at hk; omega
        · omega
      have h1 : m / 256 ≤ fuel := by
        have := Nat.div_lt_self (Nat.pos_of_ne_zero hm) (by norm_num : (1 : Nat) < 256)
        omega
      have h2 : m / 256 < 256 ^ k' := by
        rw [Nat.div_lt_iff_lt_mul (by norm_num : (0 : Nat) < 256)]
        calc m < 256 ^ (k' + 1) := hk
          _ = 256 ^ k' * 256 := by ring
      have := beAux_length_le fuel (m / 256) k' h1 h2
      simp only [beAux, if_neg hm, List.length_append, List.length_singleton]
      omega

theorem ofBytesBE_to_bytes_be (m : Nat) : ofBytesBE (to_bytes_be m) = m := by
  by_cases hm : m = 0
  · subst hm; rfl
  · simp only [to_bytes_be, if_neg hm]
    exact ofBytesBE_beAux m m le_rfl

theorem to_bytes_be_length_le (m k : Nat) (hk : 1 ≤ k) (hm : m < 256 ^ k) :
    (to_bytes_be m).length ≤ k := by
  by_cases h0 : m = 0
  · subst h0; simpa [to_bytes_be] using hk
  · simp only [to_bytes_be, if_neg h0]
    exact beAux_length_le m m k le_rfl hm

theorem digitVal_digitChar : ∀ d : Nat, d < 10 → digitVal (Nat.digitChar d) = some d := by
  decide

theorem parseBigDigits_append : ∀ (l1 l2 : List Char) (acc : Nat),
    parseBigDigits acc (l1 ++ l2) =
      match parseBigDigits acc l1 with
      | .ok a => parseBigDigits a l2
      | .error e => .error e
  | [], _, _ => rfl
  | c :: cs, l2, acc => by
    simp only [List.cons_append, parseBigDigits]
    cases digitVal c with
    | some d => exact parseBigDigits_append cs l2 _
    | none => rfl

theorem parseBigDigits_decAux : ∀ (fuel m : Nat), m ≤ fuel → ∀ acc : Nat,
    parseBigDigits acc (decAux fuel m) = .ok (acc * 10 ^ (decAux fuel m).length + m)
  | 0, m, h, acc => by
    have : m = 0 := by omega
    subst this; simp [decAux, parseBigDigits]
  | fuel + 1, m, h, acc => by
    by_cases hm : m = 0
    · subst hm; simp [decAux, parseBigDigits]
    · have hrec : m / 10 ≤ fuel := by
        have := Nat.div_lt_self (Nat.pos_of_ne_zero hm) (by norm_num : (1 : Nat) < 10)
        omega
      simp only [decAux, if_neg hm]
      rw [parseBigDigits_append, parseBigDigits_decAux fuel (m / 10) hrec acc]
      simp only [parseBigDigits, digitVal_digitChar (m % 10) (Nat.mod_lt m (by norm_num)),
        List.length_append, List.length_singleton]
      congr 1
      have : (acc * 10 ^ (decAux fuel (m / 10)).length + m / 10) * 10 + m % 10 =
          acc * (10 ^ (decAux fuel (m / 10)).length * 10) + (m / 10 * 10 + m % 10) := by ring
      rw [this, pow_succ]
      omega

theorem decAux_mem_digit : ∀ (fuel m : Nat) (c : Char), c ∈ decAux fuel m →
    (digitVal c).isSome
  | 0, _, _, h => by simp [decAux] at h
  | fuel + 1, m, c, h => by
    by_cases hm : m = 0
    · subst hm; simp [decAux] at h
    · simp only [decAux, if_neg hm, List.mem_append, List.mem_singleton] at h
      rcases h with h | h
      · exact decAux_mem_digit fuel (m / 10) c h
      · subst h
        rw [digitVal_digitChar (m % 10) (Nat.mod_lt m (by norm_num))]
        rfl

theorem decAux_ne_nil (fuel m : Nat) (h1 : 1 ≤ m) (h2 : m ≤ fuel) : decAux fuel m ≠ [] := by
  cases fuel with
  | zero => omega
  | succ fuel => simp [decAux, show m ≠ 0 by omega]

theorem parseBigUint_decChars (v : Nat) : parseBigUint (decChars v) = .ok v := by
  by_cases hv : v = 0
  · subst hv; rfl
  · have hne : decChars v ≠ [] := by
      simp only [decChars, if_neg hv]
      exact decAux_ne_nil v v (Nat.pos_of_ne_zero hv) le_rfl
    obtain ⟨c, cs, hc⟩ := List.exists_cons_of_ne_nil hne
    have hcd : (digitVal c).isSome := by
      have hmem : c ∈ decChars v := by rw [hc]; simp
      simp only [decChars, if_neg hv] at hmem
      exact decAux_mem_digit v v c hmem
    have hcp : c ≠ '+' := by
      rintro rfl
      exact absurd hcd (by decide)
    have hparse : parseBigDigits 0 (decChars v) = .ok v := by
      simp only [decChars, if_neg hv]
      rw [parseBigDigits_decAux v v le_rfl 0]
      simp
    rw [hc] at hparse ⊢
    unfold parseBigUint
    split
    · rename_i rest heq
      injection heq with h1 _
      exact absurd h1 hcp
    · simpa using hparse

/-! ## Lemmas about splitting and hex decoding -/

theorem splitOnChar_ne_nil (c : Char) : ∀ l : List Char, splitOnChar c l ≠ []
  | [] => by simp [splitOnChar]
  | x :: xs => by
    simp only [splitOnChar]
    split
    · simp
    · split <;> simp

theorem splitOnChar_length (c : Char) : ∀ l : List Char,
    (splitOnChar c l).length = l.count c + 1
  | [] => by simp [splitOnChar]
  | x :: xs => by
    have h := splitOnChar_length c xs
    simp only [splitOnChar]
    by_cases hx : x = c
    · rw [if_pos hx]
      simp [List.count_cons, hx, h]
    · rw [if_neg hx]
      rcases hsp : splitOnChar c xs with _ | ⟨hh, tt⟩
      · exact absurd hsp (splitOnChar_ne_nil c xs)
      · rw [hsp] at h
        simp only [List.length_cons] at h ⊢
        simp [List.count_cons, hx]
        omega

theorem splitOnChar_not_mem (c : Char) : ∀ l : List Char, c ∉ l → splitOnChar c l = [l]
  | [], _ => rfl
  | x :: xs, h => by
    have hx : x ≠ c := fun hxc => h (by simp [hxc])
    have hxs : c ∉ xs := fun hmem => h (by simp [hmem])
    simp only [splitOnChar, if_neg hx, splitOnChar_not_mem c xs hxs]

theorem splitOnChar_sep (c : Char) : ∀ a : List Char, ∀ b : List Char,
    c ∉ a → c ∉ b → splitOnChar c (a ++ c :: b) = [a, b]
  | [], b, _, hb => by
    simp [List.nil_append, splitOnChar, splitOnChar_not_mem c b hb]
  | x :: xs, b, ha, hb => by
    have hx : x ≠ c := fun hxc => ha (by simp [hxc])
    have hxs : c ∉ xs := fun hmem => ha (by simp [hmem])
    simp only [List.cons_append, splitOnChar, if_neg hx, List.append_eq,
      splitOnChar_sep c xs b hxs hb]

theorem hexPairs_ok : ∀ (s : List Char) (idx : Nat),
    (∀ c ∈ s, (hexVal c).isSome) → s.length % 2 = 0 →
    ∃ bs, hexPairs idx s = .ok bs ∧ bs.length = s.length / 2
  | [], _, _, _ => ⟨[], rfl, rfl⟩
  | [_], _, _, hev => by simp at hev
  | c1 :: c2 :: rest, idx, hhex, hev => by
    obtain ⟨h1, hv1⟩ := Option.isSome_iff_exists.mp (hhex c1 (by simp))
    obtain ⟨h2, hv2⟩ := Option.isSome_iff_exists.mp (hhex c2 (by simp))
    obtain ⟨bs, hbs, hlen⟩ := hexPairs_ok rest (idx + 2)
      (fun c hc => hhex c (by simp [hc]))
      (by simp only [List.length_cons] at hev ⊢; omega)
    refine ⟨(h1 * 16 + h2) :: bs, ?_, ?_⟩
    · simp [hexPairs, hv1, hv2, hbs, Except.map]
    · simp only [List.length_cons, hlen]
      omega

theorem startsWith_0x_false : ∀ s : List Char, (∀ c ∈ s, (hexVal c).isSome) →
    startsWith ('0' :: ['x']) s = false
  | [], _ => rfl
  | [c], _ => by
    simp [startsWith]
  | c1 :: c2 :: rest, h => by
    have h2 : (hexVal c2).isSome := h c2 (by simp)
    have hx : c2 ≠ 'x' := by
      rintro rfl
      exact absurd h2 (by decide)
    simp [startsWith, Ne.symm hx]

theorem decode_hex_hexDigits (s : List Char) (hhex : ∀ c ∈ s, (hexVal c).isSome)
    (hev : s.length % 2 = 0) :
    ∃ bs, decode_hex s = .ok bs ∧ bs.length = s.length / 2 := by
  obtain ⟨bs, h1, h2⟩ := hexPairs_ok s 0 hhex hev
  refine ⟨bs, ?_, h2⟩
  unfold decode_hex
  rw [startsWith_0x_false s hhex]
  simp [hexDecode, hev, h1]

/-! ## Buffer discipline: every encoder only appends to the buffer -/

theorem encode_packed_address_append (data : List Char) (buf : List Nat) :
    encode_packed_address data buf = (encode_packed_address data []).map (buf ++ ·) := by
  unfold encode_packed_address
  cases decode_hex data with
  | error e => rfl
  | ok dec =>
    by_cases h : dec.length ≠ 20 <;> simp [h, Except.map]

theorem encode_packed_bool_append (data : List Char) (buf : List Nat) :
    encode_packed_bool data buf = (encode_packed_bool data []).map (buf ++ ·) := by
  unfold encode_packed_bool
  by_cases h1 : data = "true".data
  · simp [h1, Except.map]
  · by_cases h2 : data = "false".data <;> simp [h1, h2, Except.map]

theorem encode_packed_string_append (data : List Char) (buf : List Nat) :
    encode_packed_string data buf = (encode_packed_string data []).map (buf ++ ·) := by
  simp [encode_packed_string, Except.map]

theorem encode_packed_uintn_append (data : List Char) (size : Nat) (buf : List Nat) :
    encode_packed_uintn data size buf =
      (encode_packed_uintn data size []).map (Except.map (buf ++ ·)) := by
  unfold encode_packed_uintn
  cases parseBigUint data with
  | error e => rfl
  | ok num =>
    by_cases h : (to_bytes_be num).length ≤ size / 8 <;> simp [h, Except.map]

theorem encode_packed_intn_append (data : List Char) (size : Nat) (buf : List Nat) :
    encode_packed_intn data size buf =
      (encode_packed_intn data size []).map (Except.map (buf ++ ·)) := by
  unfold encode_packed_intn
  cases parseBigInt data with
  | error e => rfl
  | ok num =>
    by_cases h : (to_signed_bytes_be num).length ≤ size / 8 <;> simp [h, Except.map]

theorem encode_packed_bytes_append (data : List Char) (buf : List Nat) :
    encode_packed_bytes data buf = (encode_packed_bytes data []).map (buf ++ ·) := by
  unfold encode_packed_bytes
  cases decode_hex data with
  | error e => rfl
  | ok dbuf => simp [Except.map]

theorem encode_packed_bytesn_append (data : List Char) (size : Nat) (buf : List Nat) :
    encode_packed_bytesn data size buf = (encode_packed_bytesn data size []).map (buf ++ ·) := by
  unfold encode_packed_bytesn
  cases decode_hex data with
  | error e => rfl
  | ok dbuf =>
    by_cases h : dbuf.length ≠ size <;> simp [h, Except.map]

theorem ABIField.encode_packed_append (f : ABIField) (data : List Char) (buf : List Nat) :
    f.encode_packed data buf = (f.encode_packed data []).map (Except.map (buf ++ ·)) := by
  cases f with
  | Address => simp [ABIField.encode_packed, encode_packed_address_append data buf]
  | Boolean => simp [ABIField.encode_packed, encode_packed_bool_append data buf]
  | String => simp [ABIField.encode_packed, encode_packed_string_append data buf]
  | Bytes => simp [ABIField.encode_packed, encode_packed_bytes_append data buf]
  | BytesN size => simp [ABIField.encode_packed, encode_packed_bytesn_append data size buf]
  | IntN size => exact encode_packed_intn_append data size buf
  | UintN size => exact encode_packed_uintn_append data size buf
  | FixedN m n => rfl
  | UFixedN m n => rfl

theorem encode_field_append (tok : List Char) (buf : List Nat) :
    encode_field tok buf = (encode_field tok []).map (Except.map (buf ++ ·)) := by
  unfold encode_field
  rcases hsp : splitOnChar ':' tok with _ | ⟨a, _ | ⟨b, _ | ⟨x, t⟩⟩⟩
  · rfl
  · rfl
  · cases hfs : ABIField.from_str a with
    | error e => simp [hfs, Except.map]
    | ok fld => simpa [hfs] using ABIField.encode_packed_append fld b buf
  · rfl

theorem okOutcome_exists {r : Option (Except ABIError (List Nat))}
    (h : okOutcome r = true) : ∃ bs, r = some (.ok bs) := by
  match r with
  | some (.ok bs) => exact ⟨bs, rfl⟩
  | some (.error e) => simp [okOutcome] at h
  | none => simp [okOutcome] at h

theorem encodeFields_all_ok : ∀ (fs : List (List Char)) (buf : List Nat),
    (∀ f ∈ fs, okOutcome (encode_field f []) = true) →
    encodeFields fs buf =
      some (.ok (buf ++ fs.flatMap (fun f => okBytes (encode_field f []))))
  | [], buf, _ => by simp [encodeFields]
  | f :: fs, buf, h => by
    obtain ⟨bs, hbs⟩ := okOutcome_exists (h f (by simp))
    have hbuf : encode_field f buf = some (.ok (buf ++ bs)) := by
      rw [encode_field_append, hbs]; rfl
    simp only [encodeFields, hbuf]
    rw [encodeFields_all_ok fs (buf ++ bs) (fun g hg => h g (by simp [hg]))]
    simp [okBytes, hbs, List.flatMap_cons]

theorem encodeFields_first_error : ∀ (fs : List (List Char)) (buf : List Nat) (i : Nat)
    (hi : i < fs.length) (e : ABIError),
    encode_field (fs.get ⟨i, hi⟩) [] = some (.error e) →
    (∀ j (hj : j < fs.length), j < i → okOutcome (encode_field (fs.get ⟨j, hj⟩) []) = true) →
    encodeFields fs buf = some (.error e)
  | [], _, i, hi, _, _, _ => by simp at hi
  | f :: fs, buf, 0, hi, e, herr, _ => by
    simp only [List.get] at herr
    have : encode_field f buf = some (.error e) := by
      rw [encode_field_append, herr]; rfl
    simp [encodeFields, this]
  | f :: fs, buf, i + 1, hi, e, herr, hok => by
    obtain ⟨bs, hbs⟩ := okOutcome_exists (hok 0 (by simp) (Nat.succ_pos i))
    have hbs0 : encode_field f [] = some (.ok bs) := hbs
    have hbuf : encode_field f buf = some (.ok (buf ++ bs)) := by
      rw [encode_field_append, hbs0]; rfl
    simp only [encodeFields, hbuf]
    exact encodeFields_first_error fs (buf ++ bs) i (by simpa using hi) e
      (by simpa using herr)
      (fun j hj hji => by
        have := hok (j + 1) (by simpa using hj) (by omega)
        simpa using this)

theorem encodeFields_first_panic : ∀ (fs : List (List Char)) (buf : List Nat) (i : Nat)
    (hi : i < fs.length),
    encode_field (fs.get ⟨i, hi⟩) [] = none →
    (∀ j (hj : j < fs.length), j < i → okOutcome (encode_field (fs.get ⟨j, hj⟩) []) = true) →
    encodeFields fs buf = none
  | [], _, i, hi, _, _ => by simp at hi
  | f :: fs, buf, 0, hi, herr, _ => by
    simp only [List.get] at herr
    have : encode_field f buf = none := by
      rw [encode_field_append, herr]; rfl
    simp [encodeFields, this]
  | f :: fs, buf, i + 1, hi, herr, hok => by
    obtain ⟨bs, hbs⟩ := okOutcome_exists (hok 0 (by simp) (Nat.succ_pos i))
    have hbs0 : encode_field f [] = some (.ok bs) := hbs
    have hbuf : encode_field f buf = some (.ok (buf ++ bs)) := by
      rw [encode_field_append, hbs0]; rfl
    simp only [encodeFields, hbuf]
    exact encodeFields_first_panic fs (buf ++ bs) i (by simpa using hi)
      (by simpa using herr)
      (fun j hj hji => by
        have := hok (j + 1) (by simpa using hj) (by omega)
        simpa using this)

/-! ## The claims -/

/-- Claim C4: for every `UintN(size)` descriptor with `size` a positive
multiple of 8 and `size ≤ 256`, and every `v` with `0 ≤ v < 2^size`,
encoding `v`'s decimal string with `encode_packed_uintn` appends exactly
`size / 8` bytes to the buffer, and reading those bytes back as a big-endian
unsigned integer recovers `v` exactly. -/
theorem encode_packed_uintn_roundtrip (size v : Nat) (buf : List Nat)
    (h8 : size % 8 = 0) (hpos : 0 < size) (hle : size ≤ 256) (hv : v < 2 ^ size) :
    ∃ bs, encode_packed_uintn (decChars v) size buf = some (.ok (buf ++ bs))
      ∧ bs.length = size / 8 ∧ ofBytesBE bs = v := by
  have hk : 1 ≤ size / 8 := by omega
  have h256 : v < 256 ^ (size / 8) := by
    have he : 8 * (size / 8) = size := by omega
    calc v < 2 ^ size := hv
      _ = 2 ^ (8 * (size / 8)) := by rw [he]
      _ = (2 ^ 8) ^ (size / 8) := by rw [pow_mul]
      _ = 256 ^ (size / 8) := by norm_num
  have hlen := to_bytes_be_length_le v (size / 8) hk h256
  refine ⟨List.replicate (size / 8 - (to_bytes_be v).length) 0 ++ to_bytes_be v, ?_, ?_, ?_⟩
  · unfold encode_packed_uintn
    rw [parseBigUint_decChars v]
    simp [hlen]
  · simp only [List.length_append, List.length_replicate]
    omega
  · rw [ofBytesBE_append, ofBytesBE_replicate_zero, ofBytesBE_to_bytes_be]
    simp

/-- Witness for C4 at `size = 8`, `v = 255`, empty buffer. -/
theorem encode_packed_uintn_roundtrip_witness :
    ∃ bs, encode_packed_uintn (decChars 255) 8 [] = some (.ok ([] ++ bs))
      ∧ bs.length = 8 / 8 ∧ ofBytesBE bs = 255 :=
  encode_packed_uintn_roundtrip 8 255 [] (by norm_num) (by norm_num) (by norm_num)
    (by norm_num)

/-- Claim C1 (code bug): `IntN` encoding left-pads with `0x00` regardless of
sign, so the two's-complement round trip fails for negative values that need
fewer than `size / 8` minimal bytes.  At `IntN(16)` with value `-1` (which
satisfies `-2^15 ≤ -1 < 2^15`) the encoder emits `[0x00, 0xff]`, whose
big-endian two's-complement reading is `255`, not `-1`. -/
theorem intn_negative_zero_padding_bug :
    encode_packed_intn "-1".data 16 [] = some (.ok [0x00, 0xff])
      ∧ decodeTwosBE [0x00, 0xff] = 255
      ∧ decodeTwosBE [0x00, 0xff] ≠ -1
      ∧ -(2 : Int) ^ 15 ≤ -1 ∧ (-1 : Int) < 2 ^ 15 :=
  ⟨rfl, rfl, by decide, by norm_num, by norm_num⟩

/-- Claim C2 (code bug): `parse_ufixed` strips the literal prefix `"fixed"`,
which never matches a name starting with `"ufixed"`, so the `x` inside
`"ufixed"` makes the `MxN` split produce three pieces and every `ufixed`
name is rejected with `InvalidFieldDefinition` instead of producing
`UFixedN(M, N)`. -/
theorem ufixed_parse_bug :
    ABIField.from_str "ufixed128x18".data = .error .InvalidFieldDefinition := rfl

/-- Counterexample for C3: the example input's address literal holds only 38
hex digits (19 bytes), so the whole encode fails with
`InvalidValue("invalid address")` rather than returning the claimed 22
bytes. -/
theorem encode_example_short_address_fails :
    encode_abi_packed
        "uint8:5,bool:true,address:0x000000000000000000000000000000000000ff".data
      = some (.error (.InvalidValue "invalid address".data))
    ∧ encode_abi_packed
        "uint8:5,bool:true,address:0x000000000000000000000000000000000000ff".data
      ≠ some (.ok ([0x05, 0x01] ++ List.replicate 19 0 ++ [0xff])) :=
  ⟨rfl, by decide⟩

/-- Amended C3: with a 40-hex-digit (20-byte) address literal the input
encodes to exactly the 22 bytes `05 01 00×19 ff`. -/
theorem encode_example_full_address :
    encode_abi_packed
        "uint8:5,bool:true,address:0x00000000000000000000000000000000000000ff".data
      = some (.ok ([0x05, 0x01] ++ List.replicate 19 0 ++ [0xff])) := rfl

/-- Claim C5: the six concrete type-parsing facts. -/
theorem from_str_examples :
    ABIField.from_str "uint".data = .ok (.UintN 256)
  ∧ ABIField.from_str "uint8".data = .ok (.UintN 8)
  ∧ ABIField.from_str "uint7".data = .error (.InvalidSize 7)
  ∧ ABIField.from_str "bytes33".data = .error (.InvalidSize 33)
  ∧ ABIField.from_str "fixed128x18".data = .ok (.FixedN 128 18)
  ∧ ABIField.from_str "fixed127x18".data = .error (.InvalidSize 127) :=
  ⟨rfl, rfl, rfl, rfl, rfl, rfl⟩

/-- Claim C6: a token with exactly one `:` is split there into type name and
value; a token with zero or more than one `:` fails with
`InvalidFieldDefinition`; in particular `"uint8-5"` so fails. -/
theorem encode_field_colon_split :
    (∀ (tok : List Char) (buf : List Nat), tok.count ':' ≠ 1 →
      encode_field tok buf = some (.error .InvalidFieldDefinition))
  ∧ (∀ (a b : List Char) (buf : List Nat), ':' ∉ a → ':' ∉ b →
      encode_field (a ++ ':' :: b) buf =
        match ABIField.from_str a with
        | .error e => some (.error e)
        | .ok fld => fld.encode_packed b buf)
  ∧ (∀ buf : List Nat,
      encode_field "uint8-5".data buf = some (.error .InvalidFieldDefinition)) := by
  refine ⟨?_, ?_, fun buf => rfl⟩
  · intro tok buf h
    have hlen : (splitOnChar ':' tok).length ≠ 2 := by
      rw [splitOnChar_length]
      omega
    unfold encode_field
    rcases hsp : splitOnChar ':' tok with _ | ⟨a, _ | ⟨b, _ | _⟩⟩
    · rfl
    · rfl
    · rw [hsp] at hlen
      simp at hlen
    · rfl
  · intro a b buf ha hb
    unfold encode_field
    rw [splitOnChar_sep ':' a b ha hb]

/-- Witness for C6: a token without any colon fails. -/
theorem encode_field_colon_split_witness :
    encode_field ['a', 'b'] [] = some (.error .InvalidFieldDefinition) :=
  encode_field_colon_split.1 ['a', 'b'] [] (by decide)

/-- Claim C9: fixed-point descriptors never encode: both `FixedN` and
`UFixedN` always yield `Unimplemented` and append nothing (the error carries
no buffer). -/
theorem fixed_encode_unimplemented (m n : Nat) (data : List Char) (buf : List Nat) :
    (ABIField.FixedN m n).encode_packed data buf = some (.error .Unimplemented)
  ∧ (ABIField.UFixedN m n).encode_packed data buf = some (.error .Unimplemented) :=
  ⟨rfl, rfl⟩

/-- Claim C10: prefix stripping removes every leading repetition of the
base-type name, so repeated-prefix names parse: `"bytesbytes32"` gives
`BytesN 32` and `"intint8"` gives `IntN 8`. -/
theorem repeated_type_name_accepted :
    ABIField.from_str "bytesbytes32".data = .ok (.BytesN 32)
  ∧ ABIField.from_str "intint8".data = .ok (.IntN 8) :=
  ⟨rfl, rfl⟩

/-- Amended C7: for a `BytesN(size)` descriptor (`1 ≤ size ≤ 32`) and an
**even-length** string of hex digits, a length of exactly `2*size`
characters appends precisely the decoded `size` bytes, and any other even
length yields `ByteSizeMismatch`.  (Odd-length hex strings instead fail
inside hex decoding with an `IOError`; see the counterexample.) -/
theorem encode_packed_bytesn_even_hex (size : Nat) (s : List Char) (buf : List Nat)
    (h1 : 1 ≤ size) (h2 : size ≤ 32)
    (hhex : ∀ c ∈ s, (hexVal c).isSome) (hev : s.length % 2 = 0) :
    (s.length = 2 * size →
      ∃ bs, decode_hex s = .ok bs ∧ bs.length = size
        ∧ encode_packed_bytesn s size buf = .ok (buf ++ bs))
  ∧ (s.length ≠ 2 * size →
      encode_packed_bytesn s size buf = .error .ByteSizeMismatch) := by
  obtain ⟨bs, hdec, hlen⟩ := decode_hex_hexDigits s hhex hev
  constructor
  · intro heq
    have hbs : bs.length = size := by omega
    refine ⟨bs, hdec, hbs, ?_⟩
    unfold encode_packed_bytesn
    rw [hdec]
    simp [hbs]
  · intro hne
    have hbs : bs.length ≠ size := by omega
    unfold encode_packed_bytesn
    rw [hdec]
    simp [hbs]

/-- Witness for the amended C7 at `size = 1`, value `"ab"`. -/
theorem encode_packed_bytesn_even_hex_witness :
    ∃ bs, decode_hex "ab".data = .ok bs ∧ bs.length = 1
      ∧ encode_packed_bytesn "ab".data 1 [] = .ok ([] ++ bs) :=
  (encode_packed_bytesn_even_hex 1 "ab".data [] (by norm_num) (by norm_num)
    (by decide) (by decide)).1 (by decide)

/-- Counterexample for C7 as stated: `"abc"` is a string of hex digits whose
length differs from `2*size` for `size = 1`, yet encoding it does **not**
return `ByteSizeMismatch` — it fails hex decoding with an `IOError`. -/
theorem bytesn_odd_hex_not_mismatch :
    (∀ c ∈ "abc".data, (hexVal c).isSome)
  ∧ "abc".data.length ≠ 2 * 1
  ∧ encode_packed_bytesn "abc".data 1 [] = .error (.IOError "Odd number of digits".data)
  ∧ encode_packed_bytesn "abc".data 1 [] ≠ .error .ByteSizeMismatch :=
  ⟨by decide, by decide, rfl, by decide⟩

/-- Counterexample for C8 as stated: at `"uint8:256"` the value needs two
big-endian bytes while `size / 8 = 1`, so the source's pad-width `usize`
subtraction underflows and the process panics/aborts.  No `Result` is
returned at all — neither a concatenated buffer nor the error of a failing
field — so the claimed dichotomy fails at this input. -/
theorem encode_abi_packed_panic_aborts :
    encode_abi_packed "uint8:256".data = none
  ∧ (encode_abi_packed "uint8:256".data).isSome = false :=
  ⟨rfl, rfl⟩

/-- Amended C8: `encode_abi_packed` is atomic on all inputs whose fields
terminate normally.  If every comma-separated field encodes on its own, the
result is the concatenation of the per-field byte sequences in left-to-right
order; if the leftmost non-succeeding field returns an error, exactly that
error is returned and (the error constructor carrying no byte payload) no
partial buffer reaches the caller; if the leftmost non-succeeding field
panics (integer pad-width underflow) the whole call aborts and returns
nothing at all. -/
theorem encode_abi_packed_atomic (data : List Char) :
    ((∀ f ∈ splitOnChar ',' data, okOutcome (encode_field f []) = true) →
      encode_abi_packed data =
        some (.ok ((splitOnChar ',' data).flatMap (fun f => okBytes (encode_field f [])))))
  ∧ (∀ (i : Nat) (hi : i < (splitOnChar ',' data).length) (e : ABIError),
      encode_field ((splitOnChar ',' data).get ⟨i, hi⟩) [] = some (.error e) →
      (∀ j (hj : j < (splitOnChar ',' data).length), j < i →
        okOutcome (encode_field ((splitOnChar ',' data).get ⟨j, hj⟩) []) = true) →
      encode_abi_packed data = some (.error e))
  ∧ (∀ (i : Nat) (hi : i < (splitOnChar ',' data).length),
      encode_field ((splitOnChar ',' data).get ⟨i, hi⟩) [] = none →
      (∀ j (hj : j < (splitOnChar ',' data).length), j < i →
        okOutcome (encode_field ((splitOnChar ',' data).get ⟨j, hj⟩) []) = true) →
      encode_abi_packed data = none) := by
  refine ⟨?_, ?_, ?_⟩
  · intro h
    unfold encode_abi_packed
    rw [encodeFields_all_ok _ [] h]
    simp
  · intro i hi e herr hok
    unfold encode_abi_packed
    exact encodeFields_first_error _ [] i hi e herr hok
  · intro i hi herr hok
    unfold encode_abi_packed
    exact encodeFields_first_panic _ [] i hi herr hok

/-- Witness for the amended C8: the second field of `"bool:true,bool:maybe"`
is the leftmost non-succeeding one, and exactly its error surfaces. -/
theorem encode_abi_packed_atomic_witness :
    encode_abi_packed "bool:true,bool:maybe".data
      = some (.error (.InvalidValue "invalid boolean value".data)) :=
  (encode_abi_packed_atomic "bool:true,bool:maybe".data).2.1 1 (by decide)
    (.InvalidValue "invalid boolean value".data) rfl (by decide)

end Ethtool
